import Mathlib

/-!
Shallow embedding of the blobloom blocked Bloom filter (Go) and proofs of
the specification claims.  Machine integers are modelled as naturals with
explicit reduction modulo 2^32 / 2^64 where the Go code converts or
overflows; the floating-point estimators are modelled over the reals
extended with infinities and NaN.
-/

namespace Blobloom

/-- BlockBits is the number of bits per block and the minimum number of bits
in a Filter (bloomfilter.go). -/
def BlockBits : ℕ := 512

/-- MaxBits is the maximum number of bits supported by a Filter (256GiB). -/
def MaxBits : ℕ := BlockBits <<< 32

/-- wordSize: bits per word of a block (bloomfilter.go). -/
def wordSize : ℕ := 32

/-- blockSize = BlockBits / wordSize: words per block. -/
def blockSize : ℕ := 16

/-- A block is a fixed-size Bloom filter of 16 words of 32 bits, used as a
shard of a Filter.  Words are naturals kept below 2^32. -/
abbrev Block := List ℕ

/-- The all-zero block, the value of the Go zero value block\x7b\x7d. -/
def Block.zero : Block := List.replicate blockSize 0

/-- getbit reports whether bit (i modulo BlockBits) is set
(block.getbit in bloomfilter.go). -/
def Block.getbit (b : Block) (i : ℕ) : Bool :=
  (b.getD ((i / wordSize) % blockSize) 0) &&& (1 <<< (i % wordSize)) != 0

/-- setbit sets bit (i modulo BlockBits) of b (block.setbit). -/
def Block.setbit (b : Block) (i : ℕ) : Block :=
  b.set ((i / wordSize) % blockSize)
    ((b.getD ((i / wordSize) % blockSize) 0) ||| (1 <<< (i % wordSize)))

theorem or_and_two_pow (w s : ℕ) : (w ||| 1 <<< s) &&& (1 <<< s) ≠ 0 := by
  intro hcontra
  have h1 : ((w ||| 1 <<< s) &&& (1 <<< s)).testBit s = false := by
    simp [hcontra]
  rw [Nat.testBit_and, Nat.testBit_or, Nat.testBit_shiftLeft] at h1
  simp at h1

/-- Sequential semantics of the compare-and-swap loop inside
block.setbitAtomic: load the word; if the bit is already set, stop;
otherwise the CAS succeeds (no concurrent writers) and the next load
observes the bit. -/
def casLoop (s w : ℕ) : ℕ :=
  if w &&& (1 <<< s) ≠ 0 then w
  else casLoop s (w ||| (1 <<< s))
termination_by (if w &&& (1 <<< s) = 0 then 1 else 0)
decreasing_by
  simp only [not_not] at *
  simp [or_and_two_pow, *]

/-- setbitAtomic sets bit (i modulo BlockBits) of b, atomically
(block.setbitAtomic, specialized to a single uninterrupted caller). -/
def Block.setbitAtomic (b : Block) (i : ℕ) : Block :=
  b.set ((i / wordSize) % blockSize)
    (casLoop (i % wordSize) (b.getD ((i / wordSize) % blockSize) 0))

/-- block.union: word-wise OR of block c into block b
(the 16 unrolled assignments b[j] |= c[j] in bloomfilter.go). -/
def Block.union (b c : Block) : Block := List.zipWith (· ||| ·) b c

/-- block.intersect: word-wise AND of block c into block b
(the 16 unrolled assignments b[j] &= c[j] in bloomfilter.go). -/
def Block.intersect (b c : Block) : Block := List.zipWith (· &&& ·) b c

/-- bits.OnesCount32: population count of the low 32 bits of a word. -/
def onesCount32 (w : ℕ) : ℕ :=
  (List.range 32).foldl (fun a j => a + (w >>> j) % 2) 0

/-- block.onescount: total population count of the 16 words of a block. -/
def Block.onescount (b : Block) : ℕ :=
  (List.range 16).foldl (fun a j => a + onesCount32 (b.getD j 0)) 0

/-- doublehash generates the hash values to use in iteration i of enhanced
double hashing from the values h1, h2 of the previous iteration; all
arithmetic is uint32 arithmetic (reduction modulo 2^32). -/
def doublehash (h1 h2 : ℕ) (i : ℕ) : ℕ × ℕ :=
  ((h1 + h2) % 2 ^ 32, (h2 + i % 2 ^ 32) % 2 ^ 32)

/-- reducerange maps i to an integer in the range [0,n) by taking the upper
32 bits of the 64-bit product (Lemire reduction; bloomfilter.go). -/
def reducerange (i n : ℕ) : ℕ := (i * n) >>> 32

/-- A Filter is a blocked Bloom filter: shards b plus the number k of hash
functions required (bloomfilter.go). -/
structure Filter where
  b : List Block
  k : ℕ
deriving DecidableEq

/-- New constructs a Bloom filter with the given numbers of bits and hash
functions; nbits is a uint64, nhashes a (possibly negative) int.  The
result is none exactly when the Go code panics. -/
def New (nbits : ℕ) (nhashes : ℤ) : Option Filter :=
  let nbits := if nbits < 1 then BlockBits else nbits
  let nhashes := if nhashes < 2 then 2 else nhashes
  if nbits > MaxBits then none
  else
    let nbits := if nbits % BlockBits ≠ 0 then nbits + (BlockBits - nbits % BlockBits)
      else nbits
    some ⟨List.replicate (nbits / BlockBits) Block.zero, nhashes.toNat⟩

/-- The bit-setting loop of Filter.Add: j is the Go loop index i, and the
extra argument counts the remaining iterations (the loop runs for
i = 0 .. k-2, i.e. k-1 times). -/
def addIter (b : Block) (h1 h2 j : ℕ) : ℕ → Block
  | 0 => b
  | n + 1 =>
    let p := doublehash h1 h2 j
    addIter (b.setbit p.1) p.1 p.2 (j + 1) n

/-- The bit-setting loop of Filter.AddAtomic. -/
def addAtomicIter (b : Block) (h1 h2 j : ℕ) : ℕ → Block
  | 0 => b
  | n + 1 =>
    let p := doublehash h1 h2 j
    addAtomicIter (b.setbitAtomic p.1) p.1 p.2 (j + 1) n

/-- The bit-testing loop of Filter.Has: returns false as soon as a required
bit is unset. -/
def hasIter (b : Block) (h1 h2 j : ℕ) : ℕ → Bool
  | 0 => true
  | n + 1 =>
    let p := doublehash h1 h2 j
    if b.getbit p.1 then hasIter b p.1 p.2 (j + 1) n else false

/-- The sequence of bit positions set by the Filter.Add loop, in order. -/
def hashSeq (h1 h2 j : ℕ) : ℕ → List ℕ
  | 0 => []
  | n + 1 =>
    let p := doublehash h1 h2 j
    p.1 :: hashSeq p.1 p.2 (j + 1) n

/-- Filter.Add inserts a key with hash value h (a uint64) into f.  The
upper/lower 32 bits are the two starting hashes; uint32 conversions are
reductions modulo 2^32, and the uint32 conversion of len(f.b) is kept. -/
def Filter.Add (f : Filter) (h : ℕ) : Filter :=
  let h1 := (h >>> 32) % 2 ^ 32
  let h2 := h % 2 ^ 32
  let i := reducerange h1 (f.b.length % 2 ^ 32)
  ⟨f.b.set i (addIter (f.b.getD i Block.zero) h1 h2 0 (f.k - 1)), f.k⟩

/-- Filter.AddAtomic: the synchronized version of Add, modelled for a single
uninterrupted caller. -/
def Filter.AddAtomic (f : Filter) (h : ℕ) : Filter :=
  let h1 := (h >>> 32) % 2 ^ 32
  let h2 := h % 2 ^ 32
  let i := reducerange h1 (f.b.length % 2 ^ 32)
  ⟨f.b.set i (addAtomicIter (f.b.getD i Block.zero) h1 h2 0 (f.k - 1)), f.k⟩

/-- Filter.Has reports whether a key with hash value h has been added. -/
def Filter.Has (f : Filter) (h : ℕ) : Bool :=
  let h1 := (h >>> 32) % 2 ^ 32
  let h2 := h % 2 ^ 32
  let i := reducerange h1 (f.b.length % 2 ^ 32)
  hasIter (f.b.getD i Block.zero) h1 h2 0 (f.k - 1)

/-- Filter.Clear resets f to its empty state. -/
def Filter.Clear (f : Filter) : Filter :=
  ⟨f.b.map (fun _ => Block.zero), f.k⟩

/-- Filter.NumBits returns the number of bits of f. -/
def Filter.NumBits (f : Filter) : ℕ := BlockBits * f.b.length

/-- Modelled from the spec: the portable slice-level union loop (the free Go
function union(a, b []block) is present in src only as its SSE2 assembly and
its amd64 unsafe variant).  Per spec section 4.6 it ORs, in place, every
word of the receiver slice against the corresponding word of the other
operand, which the source expresses per block through block.union.  The
result records the final contents of both slices, so that writes (only ever
to the first slice) are explicit. -/
def unionSlices : List Block → List Block → List Block × List Block
  | [], cs => ([], cs)
  | as, [] => (as, [])
  | a :: as, c :: cs =>
    let r := unionSlices as cs
    (Block.union a c :: r.1, c :: r.2)

/-- Modelled from the spec: the portable slice-level intersection loop,
word-wise AND in place, per block through block.intersect from the source;
see unionSlices. -/
def intersectSlices : List Block → List Block → List Block × List Block
  | [], cs => ([], cs)
  | as, [] => (as, [])
  | a :: as, c :: cs =>
    let r := intersectSlices as cs
    (Block.intersect a c :: r.1, c :: r.2)

/-- Filter.Union sets f to the union of f and g; none exactly when the Go
code panics (differing block counts, or differing hash counts). -/
def Filter.Union (f g : Filter) : Option Filter :=
  if f.b.length ≠ g.b.length then none
  else if f.k ≠ g.k then none
  else some ⟨(unionSlices f.b g.b).1, f.k⟩

/-- Filter.Intersect sets f to the intersection of f and g; none exactly
when the Go code panics. -/
def Filter.Intersect (f g : Filter) : Option Filter :=
  if f.b.length ≠ g.b.length then none
  else if f.k ≠ g.k then none
  else some ⟨(intersectSlices f.b g.b).1, f.k⟩

/-- Reinterpretation of a block of 16 32-bit words as 8 64-bit words on a
little-endian machine: the unsafe block64 cast of setop_amd64.go. -/
def Block.to64 (b : Block) : List ℕ :=
  (List.range 8).map (fun j => b.getD (2 * j) 0 + 2 ^ 32 * b.getD (2 * j + 1) 0)

/-- Inverse reinterpretation: 8 64-bit words back to 16 32-bit words. -/
def Block.of64 (ws : List ℕ) : Block :=
  (List.range 16).map (fun j => (ws.getD (j / 2) 0 >>> (32 * (j % 2))) % 2 ^ 32)

/-- One block step of the amd64 unsafe union path: OR over the uint64 view
(the 8 assignments p[j] |= q[j] of setop_amd64.go). -/
def Block.union64 (b c : Block) : Block :=
  Block.of64 (List.zipWith (· ||| ·) (Block.to64 b) (Block.to64 c))

/-- One block step of the amd64 unsafe intersect path: AND over the uint64
view. -/
def Block.intersect64 (b c : Block) : Block :=
  Block.of64 (List.zipWith (· &&& ·) (Block.to64 b) (Block.to64 c))

/-- The amd64 unsafe union loop of setop_amd64.go: two whole blocks per
iteration while at least two remain, then one tail block.  The pair records
the final contents of both slices; the loop only ever writes to the first. -/
def unionAmd64 : List Block → List Block → List Block × List Block
  | a0 :: a1 :: as, c0 :: c1 :: cs =>
    let r := unionAmd64 as cs
    (Block.union64 a0 c0 :: Block.union64 a1 c1 :: r.1, c0 :: c1 :: r.2)
  | [a0], c0 :: cs => ([Block.union64 a0 c0], c0 :: cs)
  | as, cs => (as, cs)

/-- The amd64 unsafe intersect loop of setop_amd64.go; see unionAmd64. -/
def intersectAmd64 : List Block → List Block → List Block × List Block
  | a0 :: a1 :: as, c0 :: c1 :: cs =>
    let r := intersectAmd64 as cs
    (Block.intersect64 a0 c0 :: Block.intersect64 a1 c1 :: r.1, c0 :: c1 :: r.2)
  | [a0], c0 :: cs => ([Block.intersect64 a0 c0], c0 :: cs)
  | as, cs => (as, cs)

/-!
Floating-point model.  The float64 values flowing through Cardinality and
FPRate are modelled as reals extended with the two infinities and NaN,
with the IEEE-754 special-value propagation rules for the operations the
code uses.  The zeros produced in the modelled code paths are all +0, so
the single zero of the model behaves as IEEE +0 (e.g. x/0 = +Inf for
x > 0).  Rounding of finite intermediate results is idealized away.
-/

/-- A float64 value: NaN, an infinity, or a finite real. -/
inductive FP where
  | nan : FP
  | pinf : FP
  | ninf : FP
  | fin : ℝ → FP

/-- IEEE negation. -/
noncomputable def FP.neg : FP → FP
  | nan => nan
  | pinf => ninf
  | ninf => pinf
  | fin x => fin (-x)

/-- IEEE addition (Inf + -Inf = NaN; NaN propagates). -/
noncomputable def FP.add : FP → FP → FP
  | nan, _ => nan
  | _, nan => nan
  | pinf, ninf => nan
  | ninf, pinf => nan
  | pinf, _ => pinf
  | _, pinf => pinf
  | ninf, _ => ninf
  | _, ninf => ninf
  | fin x, fin y => fin (x + y)

/-- IEEE subtraction. -/
noncomputable def FP.sub (a c : FP) : FP := a.add c.neg

/-- IEEE multiplication (0 times an infinity is NaN). -/
noncomputable def FP.mul : FP → FP → FP
  | nan, _ => nan
  | _, nan => nan
  | pinf, pinf => pinf
  | pinf, ninf => ninf
  | ninf, pinf => ninf
  | ninf, ninf => pinf
  | pinf, fin y => if y = 0 then nan else if 0 < y then pinf else ninf
  | fin x, pinf => if x = 0 then nan else if 0 < x then pinf else ninf
  | ninf, fin y => if y = 0 then nan else if 0 < y then ninf else pinf
  | fin x, ninf => if x = 0 then nan else if 0 < x then ninf else pinf
  | fin x, fin y => fin (x * y)

/-- IEEE division; the model's zero divisor acts as +0, so x/0 is +Inf for
x > 0, -Inf for x < 0 and NaN for x = 0, and Inf/Inf is NaN. -/
noncomputable def FP.div : FP → FP → FP
  | nan, _ => nan
  | _, nan => nan
  | pinf, pinf => nan
  | pinf, ninf => nan
  | ninf, pinf => nan
  | ninf, ninf => nan
  | pinf, fin y => if 0 ≤ y then pinf else ninf
  | ninf, fin y => if 0 ≤ y then ninf else pinf
  | fin _, pinf => fin 0
  | fin _, ninf => fin 0
  | fin x, fin y =>
    if y = 0 then (if x = 0 then nan else if 0 < x then pinf else ninf)
    else fin (x / y)

/-- math.Exp with IEEE special cases: Exp(-Inf) = 0, Exp(+Inf) = +Inf. -/
noncomputable def FP.exp : FP → FP
  | nan => nan
  | pinf => pinf
  | ninf => fin 0
  | fin x => fin (Real.exp x)

/-- math.Log with IEEE special cases: Log(0) = -Inf, Log(x) = NaN for
x < 0. -/
noncomputable def FP.log : FP → FP
  | nan => nan
  | pinf => pinf
  | ninf => nan
  | fin x => if x = 0 then ninf else if x < 0 then nan else fin (Real.log x)

/-- math.Log1p: Log1p(-1) = -Inf, NaN below -1. -/
noncomputable def FP.log1p : FP → FP
  | nan => nan
  | pinf => pinf
  | ninf => nan
  | fin x => if x = -1 then ninf else if x < -1 then nan else fin (Real.log (1 + x))

open Classical in
/-- math.Lgamma (first return value): +Inf at the poles of Gamma
(nonpositive integers), log of the absolute value of Gamma elsewhere. -/
noncomputable def FP.lgamma : FP → FP
  | nan => nan
  | pinf => pinf
  | ninf => pinf
  | fin x =>
    if 0 < x then fin (Real.log (Real.Gamma x))
    else if ∃ n : ℕ, x = -(n : ℝ) then pinf
    else fin (Real.log |Real.Gamma x|)

/-- IEEE strict less-than: any comparison with NaN is false. -/
noncomputable def FP.lt : FP → FP → Bool
  | nan, _ => false
  | _, nan => false
  | ninf, ninf => false
  | ninf, _ => true
  | _, ninf => false
  | pinf, _ => false
  | fin _, pinf => true
  | fin x, fin y => decide (x < y)

/-- logFprBlock (optimize.go): log of the FPR of a single block,
k * Log1p(-Exp(-k/c)). -/
noncomputable def logFprBlock (c k : FP) : FP :=
  k.mul (FP.log1p (FP.neg (FP.exp (FP.neg (k.div c)))))

/-- logPoisson (optimize.go): log of the Poisson pmf,
k * Log(lam) - lam - Lgamma(k+1). -/
noncomputable def logPoisson (lam k : FP) : FP :=
  ((k.mul lam.log).sub lam).sub (FP.lgamma (k.add (FP.fin 1)))

/-- The summation loop of FPRate (optimize.go), with explicit fuel: none
means the loop has not returned within the given number of iterations.
The Go tolerance constant 1e-8 is written as the real 1/10^8; its exact
value is irrelevant to the claims (the comparisons proved about are
against NaN). -/
noncomputable def fprateIter (c k : FP) : ℕ → FP → FP → Option FP
  | 0, _, _ => none
  | fuel + 1, sum, i =>
    let add := FP.exp ((logPoisson ((FP.fin 512).div c) i).add
      (logFprBlock ((FP.fin 512).div i) k))
    let sum2 := sum.add add
    if (add.div sum2).lt (FP.fin (1 / 100000000)) then some sum2
    else fprateIter c k fuel sum2 (i.add (FP.fin 1))

/-- FPRate (optimize.go, current version): estimate of the false positive
rate after nkeys distinct keys, c = nbits/nkeys, summing from i = 1. -/
noncomputable def FPRate (nkeys nbits : ℕ) (nhashes : ℤ) (fuel : ℕ) : Option FP :=
  let c := (FP.fin (nbits : ℝ)).div (FP.fin (nkeys : ℝ))
  fprateIter c (FP.fin (nhashes : ℝ)) fuel (FP.fin 0) (FP.fin 1)

/-- The constant log(1 - 1/BlockBits) of bloomfilter.go. -/
noncomputable def log1M1Dblockbits : ℝ :=
  -0.0019550348358033505576274922418668121377

/-- Filter.Cardinality (bloomfilter.go): maximum likelihood estimate of the
number of distinct keys added, summed over the blocks.  A block with no
set bit is skipped; each other block contributes
Log1p(-ones/BlockBits) * logProb0Inv. -/
noncomputable def Filter.Cardinality (f : Filter) : FP :=
  let k := FP.fin ((f.k : ℝ) - 1)
  let logProb0Inv := (FP.fin 1).div (k.mul (FP.fin log1M1Dblockbits))
  f.b.foldl
    (fun n c =>
      if c.onescount = 0 then n
      else n.add ((FP.log1p (FP.fin (-((c.onescount : ℝ) / 512)))).mul logProb0Inv))
    (FP.fin 0)

/-!
Supporting lemmas: bits, list indexing, and block operations.
-/

theorem testBit_shl_one (i s : ℕ) : (1 <<< s).testBit i = decide (i = s) := by
  rw [Nat.shiftLeft_eq, one_mul, Nat.testBit_two_pow]
  simp [eq_comm]

theorem and_shl_ne_zero (x s : ℕ) : (x &&& (1 <<< s) != 0) = x.testBit s := by
  rw [Nat.shiftLeft_eq, one_mul, Nat.and_two_pow]
  cases hx : x.testBit s
  · simp
  · simp only [Bool.toNat_true, one_mul, bne_iff_ne, ne_eq]
    exact (Nat.two_pow_pos s).ne'

theorem or_shl_of_testBit {w : ℕ} (s : ℕ) (hw : w.testBit s = true) :
    w ||| 1 <<< s = w := by
  refine Nat.eq_of_testBit_eq fun i => ?_
  rw [Nat.testBit_or, testBit_shl_one]
  by_cases hi : i = s <;> simp [hi, hw]

theorem getD_set {α : Type} (l : List α) (i j : ℕ) (a d : α) :
    (l.set i a).getD j d = if i = j ∧ i < l.length then a else l.getD j d := by
  rw [List.getD_eq_getElem?_getD, List.getD_eq_getElem?_getD, List.getElem?_set]
  by_cases hij : i = j
  · subst hij
    by_cases hi : i < l.length
    · simp [hi]
    · simp [hi, List.getElem?_eq_none (Nat.le_of_not_lt hi)]
  · simp [hij]

theorem getD_replicate {α : Type} (n m : ℕ) (a d : α) :
    (List.replicate n a).getD m d = if m < n then a else d := by
  rw [List.getD_eq_getElem?_getD, List.getElem?_replicate]
  by_cases h : m < n <;> simp [h]

theorem getD_zipWith_or (b c : List ℕ) (j : ℕ) (hb : j < b.length) (hc : j < c.length) :
    (List.zipWith (fun x y => x ||| y) b c).getD j 0 = (b.getD j 0) ||| (c.getD j 0) := by
  rw [List.getD_eq_getElem?_getD, List.getD_eq_getElem?_getD, List.getD_eq_getElem?_getD,
    List.getElem?_zipWith, List.getElem?_eq_getElem hb, List.getElem?_eq_getElem hc]
  rfl

theorem Block.getbit_eq (b : Block) (i : ℕ) :
    b.getbit i = (b.getD ((i / 32) % 16) 0).testBit (i % 32) := by
  rw [Block.getbit, wordSize, blockSize, and_shl_ne_zero]

theorem Block.length_setbit (b : Block) (i : ℕ) : (b.setbit i).length = b.length :=
  List.length_set ..

theorem Block.getbit_setbit_self (b : Block) (hlen : b.length = 16) (i : ℕ) :
    (b.setbit i).getbit i = true := by
  rw [Block.getbit_eq, Block.setbit, wordSize, blockSize, getD_set]
  have hlt : (i / 32) % 16 < b.length := by rw [hlen]; exact Nat.mod_lt _ (by norm_num)
  rw [if_pos ⟨rfl, hlt⟩, Nat.testBit_or, testBit_shl_one]
  simp

theorem Block.getbit_setbit_mono {b : Block} {m : ℕ} (i : ℕ)
    (hm : b.getbit m = true) : (b.setbit i).getbit m = true := by
  rw [Block.getbit_eq] at hm ⊢
  rw [Block.setbit, wordSize, blockSize, getD_set]
  by_cases hij : (i / 32) % 16 = (m / 32) % 16 ∧ (i / 32) % 16 < b.length
  · rw [if_pos hij, hij.1, Nat.testBit_or, hm]
    simp
  · rw [if_neg hij]
    exact hm

theorem Block.getbit_zero (m : ℕ) : Block.zero.getbit m = false := by
  rw [Block.getbit_eq, Block.zero, blockSize, getD_replicate]
  by_cases h : (m / 32) % 16 < 16 <;> simp [h]

theorem Block.getbit_word_lt {b : Block} {m : ℕ} (hm : b.getbit m = true) :
    (m / 32) % 16 < b.length := by
  by_contra hge
  rw [Block.getbit_eq, List.getD_eq_default _ _ (Nat.le_of_not_lt hge)] at hm
  simp at hm

theorem Block.length_union {b c : Block} (hb : b.length = 16) (hc : c.length = 16) :
    (Block.union b c).length = 16 := by
  rw [Block.union, List.length_zipWith, hb, hc]
  rfl

theorem Block.getbit_union_left {b c : Block} (hc : c.length = 16) {m : ℕ}
    (hm : b.getbit m = true) : (Block.union b c).getbit m = true := by
  have hw : (m / 32) % 16 < b.length := Block.getbit_word_lt hm
  have hwc : (m / 32) % 16 < c.length := by rw [hc]; exact Nat.mod_lt _ (by norm_num)
  rw [Block.getbit_eq] at hm ⊢
  rw [Block.union, getD_zipWith_or _ _ _ hw hwc, Nat.testBit_or, hm]
  simp

theorem Block.getbit_union_right {b c : Block} (hb : b.length = 16) {m : ℕ}
    (hm : c.getbit m = true) : (Block.union b c).getbit m = true := by
  have hw : (m / 32) % 16 < c.length := Block.getbit_word_lt hm
  have hwb : (m / 32) % 16 < b.length := by rw [hb]; exact Nat.mod_lt _ (by norm_num)
  rw [Block.getbit_eq] at hm ⊢
  rw [Block.union, getD_zipWith_or _ _ _ hwb hw, Nat.testBit_or, hm]
  simp

/-!
Lemmas about the Add/Has loops and filter-level monotonicity.
-/

theorem length_addIter (h1 h2 j n : ℕ) (b : Block) :
    (addIter b h1 h2 j n).length = b.length := by
  induction n generalizing b h1 h2 j with
  | zero => rfl
  | succ n ih => rw [addIter, ih, Block.length_setbit]

theorem getbit_addIter {b : Block} {m : ℕ} (h1 h2 j n : ℕ)
    (hm : b.getbit m = true) : (addIter b h1 h2 j n).getbit m = true := by
  induction n generalizing b h1 h2 j with
  | zero => exact hm
  | succ n ih => exact ih _ _ _ (Block.getbit_setbit_mono _ hm)

theorem hasIter_mono {b c : Block} (hsub : ∀ m, b.getbit m = true → c.getbit m = true)
    (h1 h2 j n : ℕ) (hb : hasIter b h1 h2 j n = true) : hasIter c h1 h2 j n = true := by
  induction n generalizing h1 h2 j with
  | zero => rfl
  | succ n ih =>
    rw [hasIter] at hb ⊢
    by_cases hg : b.getbit (doublehash h1 h2 j).1 = true
    · rw [if_pos (hsub _ hg)]
      rw [if_pos hg] at hb
      exact ih _ _ _ hb
    · rw [if_neg hg] at hb
      exact absurd hb (by simp)

theorem hasIter_addIter (h1 h2 j n : ℕ) (b : Block) (hlen : b.length = 16) :
    hasIter (addIter b h1 h2 j n) h1 h2 j n = true := by
  induction n generalizing b h1 h2 j with
  | zero => rfl
  | succ n ih =>
    rw [addIter, hasIter]
    have hset : (addIter (b.setbit (doublehash h1 h2 j).1) (doublehash h1 h2 j).1
        (doublehash h1 h2 j).2 (j + 1) n).getbit (doublehash h1 h2 j).1 = true :=
      getbit_addIter _ _ _ _ (Block.getbit_setbit_self b hlen _)
    rw [if_pos hset]
    exact ih _ _ _ _ (by rw [Block.length_setbit]; exact hlen)

/-- Well-formedness: every block of the filter has its 16 words.  New
establishes it and every operation preserves it. -/
def Filter.Wf (f : Filter) : Prop := ∀ c ∈ f.b, c.length = 16

instance (f : Filter) : Decidable f.Wf :=
  inferInstanceAs (Decidable (∀ c ∈ f.b, c.length = 16))

/-- Bitwise inclusion of filters with equal shape: every bit set on the left
is set on the right. -/
def Filter.le (f g : Filter) : Prop :=
  f.k = g.k ∧ f.b.length = g.b.length ∧
  ∀ i m, (f.b.getD i Block.zero).getbit m = true →
    (g.b.getD i Block.zero).getbit m = true

theorem Filter.le_refl (f : Filter) : f.le f := ⟨rfl, rfl, fun _ _ h => h⟩

theorem Filter.le_trans {f g h : Filter} (hfg : f.le g) (hgh : g.le h) : f.le h :=
  ⟨hfg.1.trans hgh.1, hfg.2.1.trans hgh.2.1,
    fun i m hm => hgh.2.2 i m (hfg.2.2 i m hm)⟩

theorem Filter.Has_mono {f g : Filter} (hle : f.le g) {h : ℕ}
    (hhas : f.Has h = true) : g.Has h = true := by
  rw [Filter.Has] at hhas ⊢
  rw [← hle.1, ← hle.2.1]
  exact hasIter_mono (hle.2.2 _) _ _ _ _ hhas

theorem Filter.le_Add (f : Filter) (h : ℕ) : f.le (f.Add h) := by
  refine ⟨rfl, (List.length_set ..).symm, fun i m hm => ?_⟩
  rw [Filter.Add]
  rw [getD_set]
  split
  · next hcond =>
    exact getbit_addIter _ _ _ _ (by rw [hcond.1]; exact hm)
  · exact hm

theorem Filter.Wf_Add {f : Filter} (hf : f.Wf) (h : ℕ) : (f.Add h).Wf := by
  intro c hc
  rcases List.mem_or_eq_of_mem_set hc with hmem | heq
  · exact hf c hmem
  · rw [heq, length_addIter]
    by_cases hi : reducerange ((h >>> 32) % 2 ^ 32) (f.b.length % 2 ^ 32) < f.b.length
    · rw [List.getD_eq_getElem?_getD, List.getElem?_eq_getElem hi]
      exact hf _ (List.getElem_mem hi)
    · rw [List.getD_eq_default _ _ (Nat.le_of_not_lt hi)]
      rfl

theorem unionSlices_fst_length (as cs : List Block) :
    ((unionSlices as cs).1).length = as.length := by
  induction as generalizing cs with
  | nil => cases cs <;> rfl
  | cons a as ih =>
    cases cs with
    | nil => rfl
    | cons c cs => simpa [unionSlices] using ih cs

theorem unionSlices_fst_getD (as cs : List Block) (i : ℕ) (hi : i < as.length)
    (hlen : as.length = cs.length) :
    (unionSlices as cs).1.getD i Block.zero =
      Block.union (as.getD i Block.zero) (cs.getD i Block.zero) := by
  induction as generalizing cs i with
  | nil => exact absurd hi (by simp)
  | cons a as ih =>
    cases cs with
    | nil => exact absurd hlen (by simp)
    | cons c cs =>
      cases i with
      | zero => rfl
      | succ i =>
        have hi' : i < as.length := Nat.lt_of_succ_lt_succ hi
        have hlen' : as.length = cs.length := by simpa using hlen
        simpa [unionSlices] using ih cs i hi' hlen'

theorem Filter.le_Union (f g : Filter) (hg : g.Wf) :
    f.le ((f.Union g).getD f) := by
  rw [Filter.Union]
  by_cases h1 : f.b.length ≠ g.b.length
  · rw [if_pos h1]; exact Filter.le_refl f
  · rw [if_neg h1]
    by_cases h2 : f.k ≠ g.k
    · rw [if_pos h2]; exact Filter.le_refl f
    · rw [if_neg h2]
      have hlen : f.b.length = g.b.length := Decidable.not_not.mp h1
      refine ⟨rfl, by simpa using (unionSlices_fst_length f.b g.b).symm, fun i m hm => ?_⟩
      by_cases hi : i < f.b.length
      · simp only [Option.getD_some]
        rw [unionSlices_fst_getD f.b g.b i hi hlen]
        have hcw : (g.b.getD i Block.zero).length = 16 := by
          rw [List.getD_eq_getElem?_getD, List.getElem?_eq_getElem (hlen ▸ hi)]
          exact hg _ (List.getElem_mem _)
        exact Block.getbit_union_left hcw hm
      · rw [List.getD_eq_default _ _ (Nat.le_of_not_lt hi), Block.getbit_zero] at hm
        exact absurd hm (by simp)

theorem Filter.Wf_Union {f g : Filter} (hf : f.Wf) (hg : g.Wf) :
    ((f.Union g).getD f).Wf := by
  rw [Filter.Union]
  by_cases h1 : f.b.length ≠ g.b.length
  · rw [if_pos h1]; exact hf
  · rw [if_neg h1]
    by_cases h2 : f.k ≠ g.k
    · rw [if_pos h2]; exact hf
    · rw [if_neg h2]
      have hlen : f.b.length = g.b.length := Decidable.not_not.mp h1
      intro c hc
      simp only [Option.getD_some] at hc
      obtain ⟨i, hi, hci⟩ := List.getElem_of_mem hc
      have hil : i < f.b.length := by
        rw [unionSlices_fst_length] at hi
        exact hi
      have : c = Block.union (f.b.getD i Block.zero) (g.b.getD i Block.zero) := by
        rw [← hci, ← unionSlices_fst_getD f.b g.b i hil hlen,
          List.getD_eq_getElem?_getD, List.getElem?_eq_getElem hi]
        rfl
      rw [this]
      refine Block.length_union ?_ ?_
      · rw [List.getD_eq_getElem?_getD, List.getElem?_eq_getElem hil]
        exact hf _ (List.getElem_mem _)
      · rw [List.getD_eq_getElem?_getD, List.getElem?_eq_getElem (hlen ▸ hil)]
        exact hg _ (List.getElem_mem _)

/-!
The CAS loop, sequentially, just ORs the bit in; hence AddAtomic equals
Add.  Facts about New and Clear.
-/

theorem casLoop_eq (s w : ℕ) : casLoop s w = w ||| 1 <<< s := by
  rw [casLoop]
  by_cases hw : w &&& 1 <<< s ≠ 0
  · rw [if_pos hw]
    have hbit : w.testBit s = true := by
      have := and_shl_ne_zero w s
      rw [show (w &&& 1 <<< s != 0) = true by simpa using hw] at this
      exact this.symm
    exact (or_shl_of_testBit s hbit).symm
  · rw [if_neg hw, casLoop, if_pos (or_and_two_pow w s)]

theorem setbitAtomic_eq_setbit (b : Block) (i : ℕ) :
    b.setbitAtomic i = b.setbit i := by
  rw [Block.setbitAtomic, Block.setbit, casLoop_eq]

theorem addAtomicIter_eq_addIter (h1 h2 j n : ℕ) (b : Block) :
    addAtomicIter b h1 h2 j n = addIter b h1 h2 j n := by
  induction n generalizing b h1 h2 j with
  | zero => rfl
  | succ n ih => rw [addAtomicIter, addIter, setbitAtomic_eq_setbit, ih]

theorem AddAtomic_eq_Add (f : Filter) (h : ℕ) : f.AddAtomic h = f.Add h := by
  rw [Filter.AddAtomic, Filter.Add, addAtomicIter_eq_addIter]

theorem New_eq (nbits : ℕ) (nhashes : ℤ) (f : Filter)
    (hnew : New nbits nhashes = some f) :
    ∃ nb : ℕ, 0 < nb ∧
      f = ⟨List.replicate nb Block.zero, (if nhashes < 2 then 2 else nhashes).toNat⟩ := by
  rw [New] at hnew
  by_cases hmax : (if nbits < 1 then BlockBits else nbits) > MaxBits
  · rw [if_pos hmax] at hnew
    exact absurd hnew (by simp)
  · rw [if_neg hmax] at hnew
    simp only [Option.some.injEq] at hnew
    refine ⟨_, ?_, hnew.symm⟩
    have hm1 : (1 : ℕ) ≤ if nbits < 1 then BlockBits else nbits := by
      split
      · simp [BlockBits]
      · next hn => omega
    revert hm1
    generalize (if nbits < 1 then BlockBits else nbits) = m
    intro hm1
    simp only [BlockBits] at *
    split
    · next hr => omega
    · next hr => omega

theorem New_Wf {nbits : ℕ} {nhashes : ℤ} {f : Filter}
    (hnew : New nbits nhashes = some f) : f.Wf := by
  obtain ⟨nb, _, hf⟩ := New_eq _ _ _ hnew
  rw [hf]
  intro c hc
  rw [List.eq_of_mem_replicate hc]
  rfl

theorem New_b_ne_nil {nbits : ℕ} {nhashes : ℤ} {f : Filter}
    (hnew : New nbits nhashes = some f) : f.b ≠ [] := by
  obtain ⟨nb, hnb, hf⟩ := New_eq _ _ _ hnew
  rw [hf]
  show List.replicate nb Block.zero ≠ []
  intro hcon
  have hl := congrArg List.length hcon
  simp at hl
  omega

theorem New_k_ge_two {nbits : ℕ} {nhashes : ℤ} {f : Filter}
    (hnew : New nbits nhashes = some f) : 2 ≤ f.k := by
  obtain ⟨nb, _, hf⟩ := New_eq _ _ _ hnew
  rw [hf]
  show 2 ≤ (if nhashes < 2 then 2 else nhashes).toNat
  split
  · omega
  · next hn => omega

theorem New_blocks_zero {nbits : ℕ} {nhashes : ℤ} {f : Filter}
    (hnew : New nbits nhashes = some f) : ∀ c ∈ f.b, c = Block.zero := by
  obtain ⟨nb, _, hf⟩ := New_eq _ _ _ hnew
  rw [hf]
  intro c hc
  exact List.eq_of_mem_replicate hc

/-- A mutation drawn from the operations that only ever set bits: Add,
AddAtomic, or a Union with a second operand (a failed Union, i.e. a Go
panic, leaves the filter as it was). -/
inductive Op where
  | add : ℕ → Op
  | addAtomic : ℕ → Op
  | union : Filter → Op

/-- Apply one mutation. -/
def Filter.applyOp (f : Filter) : Op → Filter
  | Op.add h => f.Add h
  | Op.addAtomic h => f.AddAtomic h
  | Op.union g => (f.Union g).getD f

/-- Apply a sequence of mutations in order. -/
def Filter.applyOps (f : Filter) (l : List Op) : Filter := l.foldl Filter.applyOp f

/-- Well-formedness of an operation: the second operand of a union is a
well-formed filter. -/
def Op.Wf : Op → Prop
  | Op.union g => g.Wf
  | _ => True

theorem applyOp_le_Wf (f : Filter) (op : Op) (hf : f.Wf) (hop : op.Wf) :
    f.le (f.applyOp op) ∧ (f.applyOp op).Wf := by
  cases op with
  | add h => exact ⟨Filter.le_Add f h, Filter.Wf_Add hf h⟩
  | addAtomic h =>
    rw [Filter.applyOp, AddAtomic_eq_Add]
    exact ⟨Filter.le_Add f h, Filter.Wf_Add hf h⟩
  | union g => exact ⟨Filter.le_Union f g hop, Filter.Wf_Union hf hop⟩

theorem applyOps_le_Wf (f : Filter) (ops : List Op) (hf : f.Wf)
    (hops : ∀ op ∈ ops, op.Wf) :
    f.le (f.applyOps ops) ∧ (f.applyOps ops).Wf := by
  induction ops generalizing f with
  | nil => exact ⟨Filter.le_refl f, hf⟩
  | cons op ops ih =>
    have h1 := applyOp_le_Wf f op hf (hops op (by simp))
    have h2 := ih (f.applyOp op) h1.2 (fun o ho => hops o (by simp [ho]))
    exact ⟨Filter.le_trans h1.1 h2.1, h2.2⟩

theorem reducerange_lt {i : ℕ} (n : ℕ) (hi : i < 2 ^ 32) (hn : 0 < n) :
    reducerange i n < n := by
  rw [reducerange, Nat.shiftRight_eq_div_pow]
  exact Nat.div_lt_of_lt_mul ((Nat.mul_lt_mul_right hn).mpr hi)

theorem Has_Add_self (f : Filter) (hf : f.Wf) (hne : f.b ≠ []) (h : ℕ) :
    (f.Add h).Has h = true := by
  have hlen : 0 < f.b.length := List.length_pos.mpr hne
  set h1 := (h >>> 32) % 2 ^ 32 with hh1
  set h2 := h % 2 ^ 32 with hh2
  set i := reducerange h1 (f.b.length % 2 ^ 32) with hi
  have hilt : i < f.b.length := by
    rw [hi]
    by_cases hz : f.b.length % 2 ^ 32 = 0
    · rw [hz, reducerange]
      simpa using hlen
    · exact Nat.lt_of_lt_of_le
        (reducerange_lt _ (Nat.mod_lt _ (by norm_num)) (Nat.pos_iff_ne_zero.mpr hz))
        (Nat.mod_le _ _)
  have hb16 : (f.b.getD i Block.zero).length = 16 := by
    rw [List.getD_eq_getElem?_getD, List.getElem?_eq_getElem hilt]
    exact hf _ (List.getElem_mem _)
  rw [Filter.Add, Filter.Has]
  simp only [List.length_set]
  rw [← hh1, ← hh2, ← hi, getD_set, if_pos ⟨rfl, hilt⟩]
  exact hasIter_addIter _ _ _ _ _ hb16

theorem Union_eq (f g fu : Filter) (hu : f.Union g = some fu) :
    f.b.length = g.b.length ∧ f.k = g.k ∧
      fu = ⟨(unionSlices f.b g.b).1, f.k⟩ := by
  rw [Filter.Union] at hu
  by_cases h1 : f.b.length ≠ g.b.length
  · rw [if_pos h1] at hu
    exact absurd hu (by simp)
  · rw [if_neg h1] at hu
    by_cases h2 : f.k ≠ g.k
    · rw [if_pos h2] at hu
      exact absurd hu (by simp)
    · rw [if_neg h2] at hu
      simp only [Option.some.injEq] at hu
      exact ⟨Decidable.not_not.mp h1, Decidable.not_not.mp h2, hu.symm⟩

theorem Filter.le_Union_right {f g fu : Filter} (hf : f.Wf)
    (hu : f.Union g = some fu) : g.le fu := by
  obtain ⟨hlen, hk, hfu⟩ := Union_eq f g fu hu
  subst hfu
  refine ⟨hk.symm, ?_, fun i m hm => ?_⟩
  · show g.b.length = (unionSlices f.b g.b).1.length
    rw [unionSlices_fst_length, hlen]
  · by_cases hi : i < g.b.length
    · have hif : i < f.b.length := by rw [hlen]; exact hi
      show ((unionSlices f.b g.b).1.getD i Block.zero).getbit m = true
      rw [unionSlices_fst_getD f.b g.b i hif hlen]
      have hfw16 : (f.b.getD i Block.zero).length = 16 := by
        rw [List.getD_eq_getElem?_getD, List.getElem?_eq_getElem hif]
        exact hf _ (List.getElem_mem _)
      exact Block.getbit_union_right hfw16 hm
    · rw [List.getD_eq_default _ _ (Nat.le_of_not_lt hi), Block.getbit_zero] at hm
      exact absurd hm (by simp)

/-- The state of the enhanced double hashing recurrence after j
applications, starting from the two 32-bit halves (h1, h2). -/
def recState (h1 h2 : ℕ) : ℕ → ℕ × ℕ
  | 0 => (h1, h2)
  | j + 1 => doublehash (recState h1 h2 j).1 (recState h1 h2 j).2 j

theorem hashSeq_recState (h1 h2 : ℕ) (n : ℕ) :
    ∀ j m, m < n →
      (hashSeq (recState h1 h2 j).1 (recState h1 h2 j).2 j n)[m]? =
        some ((recState h1 h2 (j + m + 1)).1) := by
  induction n with
  | zero => intro j m hm; exact absurd hm (by omega)
  | succ n ih =>
    intro j m hm
    have hstep : doublehash (recState h1 h2 j).1 (recState h1 h2 j).2 j =
        recState h1 h2 (j + 1) := rfl
    cases m with
    | zero => simp [hashSeq, hstep]
    | succ m =>
      rw [show j + (m + 1) + 1 = (j + 1) + m + 1 by omega]
      rw [hashSeq]
      simp only [hstep]
      rw [List.getElem?_cons_succ]
      exact ih (j + 1) m (Nat.lt_of_succ_lt_succ hm)

theorem addIter_eq_foldl (h1 h2 j n : ℕ) (b : Block) :
    addIter b h1 h2 j n = (hashSeq h1 h2 j n).foldl Block.setbit b := by
  induction n generalizing b h1 h2 j with
  | zero => rfl
  | succ n ih =>
    rw [addIter, hashSeq]
    exact ih _ _ _ _

theorem getD_map_const {α β : Type} (l : List α) (c : β) (i : ℕ) :
    (l.map (fun _ => c)).getD i c = c := by
  by_cases hi : i < l.length
  · rw [List.getD_eq_getElem?_getD, List.getElem?_map, List.getElem?_eq_getElem hi]
    rfl
  · refine List.getD_eq_default _ _ ?_
    rw [List.length_map]
    exact Nat.le_of_not_lt hi

theorem hasIter_zero_block (h1 h2 j n : ℕ) :
    hasIter Block.zero h1 h2 j (n + 1) = false := by
  simp [hasIter, Block.getbit_zero]

theorem unionSlices_snd (as cs : List Block) : (unionSlices as cs).2 = cs := by
  induction as generalizing cs with
  | nil => cases cs <;> rfl
  | cons a as ih =>
    cases cs with
    | nil => rfl
    | cons c cs => simpa [unionSlices] using ih cs

theorem intersectSlices_snd (as cs : List Block) : (intersectSlices as cs).2 = cs := by
  induction as generalizing cs with
  | nil => cases cs <;> rfl
  | cons a as ih =>
    cases cs with
    | nil => rfl
    | cons c cs => simpa [intersectSlices] using ih cs

theorem unionAmd64_snd : ∀ (as cs : List Block), (unionAmd64 as cs).2 = cs
  | [], cs => by cases cs <;> rfl
  | [_], [] => rfl
  | [_], _ :: _ => rfl
  | _ :: _ :: _, [] => rfl
  | _ :: _ :: _, [_] => rfl
  | a0 :: a1 :: as, c0 :: c1 :: cs => by
    have ih := unionAmd64_snd as cs
    simp [unionAmd64, ih]

theorem intersectAmd64_snd : ∀ (as cs : List Block), (intersectAmd64 as cs).2 = cs
  | [], cs => by cases cs <;> rfl
  | [_], [] => rfl
  | [_], _ :: _ => rfl
  | _ :: _ :: _, [] => rfl
  | _ :: _ :: _, [_] => rfl
  | a0 :: a1 :: as, c0 :: c1 :: cs => by
    have ih := intersectAmd64_snd as cs
    simp [intersectAmd64, ih]

/-!
Claim theorems.
-/

/-- C1: no false negatives.  For every well-formed filter with at least one
block (New always produces such a filter) and every 64-bit hash h, after
Add(h) followed by any further sequence of Add, AddAtomic or Union
operations (and no Clear), Has(h) returns true: Add and Has derive the same
block index and the same bit positions from h, Add sets all of those bits,
and no Add or Union ever clears a bit. -/
theorem C1_no_false_negatives (f : Filter) (hf : f.Wf) (hne : f.b ≠ [])
    (h : ℕ) (ops : List Op) (hops : ∀ op ∈ ops, op.Wf) :
    ((f.Add h).applyOps ops).Has h = true :=
  Filter.Has_mono
    (applyOps_le_Wf (f.Add h) ops (Filter.Wf_Add hf h) hops).1
    (Has_Add_self f hf hne h)

theorem C1_witness :
    Filter.Wf ⟨[Block.zero], 2⟩ ∧ ([Block.zero] : List Block) ≠ [] ∧
    ((Filter.Add ⟨[Block.zero], 2⟩ 123456789).applyOps []).Has 123456789 = true :=
  ⟨by decide, by decide,
    C1_no_false_negatives ⟨[Block.zero], 2⟩ (by decide) (by decide) 123456789 []
      (by simp)⟩

/-- C2: union soundness.  For well-formed filters f and g for which
f.Union(g) succeeds (equal block count and hash count), and every hash h:
if f.Has(h) or g.Has(h) held before the union, the union result answers
Has(h) = true; the per-word OR never drops a positive. -/
theorem C2_union_sound (f g fu : Filter) (hfw : f.Wf) (hgw : g.Wf)
    (hu : f.Union g = some fu) (h : ℕ)
    (hor : f.Has h = true ∨ g.Has h = true) : fu.Has h = true := by
  cases hor with
  | inl hfh =>
    have hle := Filter.le_Union f g hgw
    rw [hu, Option.getD_some] at hle
    exact Filter.Has_mono hle hfh
  | inr hgh => exact Filter.Has_mono (Filter.le_Union_right hfw hu) hgh

theorem C2_witness :
    Filter.Wf (Filter.Add ⟨[Block.zero], 2⟩ 7) ∧
    Filter.Wf (⟨[Block.zero], 2⟩ : Filter) ∧
    (Filter.Add ⟨[Block.zero], 2⟩ 7).Union ⟨[Block.zero], 2⟩ =
      some ⟨[[128, 0, 0, 0, 0, 0, 0, 0, 0, 0, 0, 0, 0, 0, 0, 0]], 2⟩ ∧
    (Filter.Add ⟨[Block.zero], 2⟩ 7).Has 7 = true ∧
    Filter.Has ⟨[[128, 0, 0, 0, 0, 0, 0, 0, 0, 0, 0, 0, 0, 0, 0, 0]], 2⟩ 7 = true :=
  ⟨by decide, by decide, by decide, by decide,
    C2_union_sound (Filter.Add ⟨[Block.zero], 2⟩ 7) ⟨[Block.zero], 2⟩
      ⟨[[128, 0, 0, 0, 0, 0, 0, 0, 0, 0, 0, 0, 0, 0, 0, 0]], 2⟩
      (by decide) (by decide) (by decide) 7 (Or.inl (by decide))⟩

/-- C3: Union and Intersect fail (none, modelling the Go panic) if and only
if the operands differ in block count or in hash count; with matching
shapes they complete normally. -/
theorem C3_shape_precondition (f g : Filter) :
    (f.Union g = none ↔ f.b.length ≠ g.b.length ∨ f.k ≠ g.k) ∧
    (f.Intersect g = none ↔ f.b.length ≠ g.b.length ∨ f.k ≠ g.k) := by
  constructor
  · rw [Filter.Union]
    by_cases h1 : f.b.length ≠ g.b.length
    · simp [h1]
    · by_cases h2 : f.k ≠ g.k <;> simp [h1, h2]
  · rw [Filter.Intersect]
    by_cases h1 : f.b.length ≠ g.b.length
    · simp [h1]
    · by_cases h2 : f.k ≠ g.k <;> simp [h1, h2]

/-- C4 counterexample: the claim as stated fails at nbits = 0 (a legal
uint64 request, allowed because 0 is not excluded by nbits below MaxBits):
New(0, 2) silently raises the request to one block, so NumBits() = 512,
which is not below nbits + BlockBits = 512. -/
theorem C4_counterexample :
    (New 0 2).map Filter.NumBits = some 512 ∧ ¬(512 < 0 + BlockBits) := by
  decide

/-- C4 (amended): for every requested size nbits with 1 ≤ nbits ≤ MaxBits
(nbits = 0 is silently raised to BlockBits and escapes the upper bound)
and every nhashes, the constructed filter satisfies
nbits ≤ NumBits() < nbits + BlockBits, and NumBits() is a positive
multiple of BlockBits. -/
theorem C4_numbits_bounds (nbits : ℕ) (nhashes : ℤ) (f : Filter)
    (hl : 1 ≤ nbits) (hu : nbits ≤ MaxBits) (hnew : New nbits nhashes = some f) :
    nbits ≤ f.NumBits ∧ f.NumBits < nbits + BlockBits ∧
    0 < f.NumBits ∧ f.NumBits % BlockBits = 0 := by
  rw [New] at hnew
  rw [if_neg (by omega : ¬nbits < 1), if_neg (Nat.not_lt.mpr hu)] at hnew
  simp only [Option.some.injEq] at hnew
  rw [← hnew, Filter.NumBits]
  simp only [List.length_replicate, BlockBits]
  split
  · next hr => omega
  · next hr => omega

theorem C4_witness :
    (1 ≤ 700 ∧ 700 ≤ MaxBits ∧
      New 700 3 = some ⟨List.replicate 2 Block.zero, 3⟩) ∧
    700 ≤ Filter.NumBits ⟨List.replicate 2 Block.zero, 3⟩ ∧
    Filter.NumBits ⟨List.replicate 2 Block.zero, 3⟩ < 700 + BlockBits ∧
    0 < Filter.NumBits ⟨List.replicate 2 Block.zero, 3⟩ ∧
    Filter.NumBits ⟨List.replicate 2 Block.zero, 3⟩ % BlockBits = 0 :=
  ⟨⟨by decide, by decide, by decide⟩,
    C4_numbits_bounds 700 3 _ (by decide) (by decide) (by decide)⟩

/-- C5 counterexample: the claim as stated fails on the code.  With input
hash h = 1 (so h1 = 0, h2 = 1) and k = 2 hash functions, the single bit
position Add sets inside the selected block is 1 = h1 + h2, because the
recurrence is applied once (with i = 0) before the first setbit; it is not
h1 = 0: bit 0 of the block stays clear while bit 1 is set. -/
theorem C5_counterexample :
    ((Filter.Add ⟨[Block.zero], 2⟩ 1).b.getD 0 Block.zero).getbit 0 = false ∧
    ((Filter.Add ⟨[Block.zero], 2⟩ 1).b.getD 0 Block.zero).getbit 1 = true := by
  decide

/-- C5 (amended): the first of the k-1 bit positions that Add sets (and Has
tests) is (h1 + h2) mod 2^32 — the enhanced double hashing recurrence
h1 fed forward as h1 + h2 and h2 as h2 + i is applied once, with 0-based
iteration index i = 0, before the first bit is set — and the j-th position
(0-based) is the first component of the recurrence state after j + 1
applications; Add sets exactly those positions, in order. -/
theorem C5_bit_positions (h1 h2 k : ℕ) (b : Block) :
    (2 ≤ k → (hashSeq h1 h2 0 (k - 1))[0]? = some ((h1 + h2) % 2 ^ 32)) ∧
    (∀ j, j < k - 1 →
      (hashSeq h1 h2 0 (k - 1))[j]? = some ((recState h1 h2 (j + 1)).1)) ∧
    addIter b h1 h2 0 (k - 1) = (hashSeq h1 h2 0 (k - 1)).foldl Block.setbit b := by
  refine ⟨?_, ?_, addIter_eq_foldl h1 h2 0 (k - 1) b⟩
  · intro hk
    have h0 := hashSeq_recState h1 h2 (k - 1) 0 0 (by omega)
    simpa [recState, doublehash] using h0
  · intro j hj
    have h0 := hashSeq_recState h1 h2 (k - 1) 0 j hj
    simpa using h0

theorem C5_witness :
    (2 ≤ 3 ∧ (1 : ℕ) < 3 - 1) ∧
    (hashSeq 3 5 0 (3 - 1))[0]? = some ((3 + 5) % 2 ^ 32) ∧
    (hashSeq 3 5 0 (3 - 1))[1]? = some ((recState 3 5 2).1) ∧
    addIter Block.zero 3 5 0 (3 - 1) =
      (hashSeq 3 5 0 (3 - 1)).foldl Block.setbit Block.zero :=
  ⟨⟨by decide, by decide⟩,
    (C5_bit_positions 3 5 3 Block.zero).1 (by decide),
    (C5_bit_positions 3 5 3 Block.zero).2.1 1 (by decide),
    (C5_bit_positions 3 5 3 Block.zero).2.2⟩

/-- C8: for every filter and hash, a single uninterrupted AddAtomic(h)
leaves the filter in exactly the same state as Add(h): the compare-and-swap
loop of setbitAtomic is, sequentially, the word-OR of setbit. -/
theorem C8_addatomic_refines_add (f : Filter) (h : ℕ) :
    f.AddAtomic h = f.Add h :=
  AddAtomic_eq_Add f h

/-- C9: on a filter whose hash count is at least two (the constructor
forces this) Has returns false for every hash when all blocks are zero
(freshly constructed by New), and likewise immediately after Clear. -/
theorem C9_empty_has_false (f : Filter) (h : ℕ) (hk : 2 ≤ f.k) :
    ((∀ c ∈ f.b, c = Block.zero) → f.Has h = false) ∧
    f.Clear.Has h = false := by
  constructor
  · intro hz
    rw [Filter.Has]
    have hb : f.b.getD
        (reducerange ((h >>> 32) % 2 ^ 32) (f.b.length % 2 ^ 32)) Block.zero =
        Block.zero := by
      by_cases hi : reducerange ((h >>> 32) % 2 ^ 32) (f.b.length % 2 ^ 32) <
          f.b.length
      · rw [List.getD_eq_getElem?_getD, List.getElem?_eq_getElem hi]
        exact hz _ (List.getElem_mem _)
      · exact List.getD_eq_default _ _ (Nat.le_of_not_lt hi)
    rw [hb]
    obtain ⟨n, hn⟩ : ∃ n, f.k - 1 = n + 1 := ⟨f.k - 2, by omega⟩
    rw [hn]
    exact hasIter_zero_block _ _ _ _
  · rw [Filter.Clear, Filter.Has]
    simp only
    rw [getD_map_const]
    obtain ⟨n, hn⟩ : ∃ n, f.k - 1 = n + 1 := ⟨f.k - 2, by omega⟩
    rw [hn]
    exact hasIter_zero_block _ _ _ _

theorem C9_witness :
    2 ≤ (⟨[Block.zero], 2⟩ : Filter).k ∧
    (∀ c ∈ (⟨[Block.zero], 2⟩ : Filter).b, c = Block.zero) ∧
    Filter.Has ⟨[Block.zero], 2⟩ 99 = false ∧
    (Filter.Clear ⟨[Block.zero], 2⟩).Has 99 = false :=
  ⟨by decide, by decide,
    (C9_empty_has_false ⟨[Block.zero], 2⟩ 99 (by decide)).1 (by decide),
    (C9_empty_has_false ⟨[Block.zero], 2⟩ 99 (by decide)).2⟩

/-- C10: the set-algebra loops modify only the receiver slice: for all
block slices, the final contents of the second operand equal its initial
contents, in the portable per-block path (through block.union and
block.intersect) and in the amd64 unsafe 64-bit-view path.  At the filter
level the embedding's Union and Intersect build the result from the first
component only, so the second filter's hash count and blocks are untouched
by construction. -/
theorem C10_second_operand_unchanged (as cs : List Block) :
    (unionSlices as cs).2 = cs ∧ (intersectSlices as cs).2 = cs ∧
    (unionAmd64 as cs).2 = cs ∧ (intersectAmd64 as cs).2 = cs :=
  ⟨unionSlices_snd as cs, intersectSlices_snd as cs,
    unionAmd64_snd as cs, intersectAmd64_snd as cs⟩

/-!
Equation lemmas for the float model, and the two estimator claims.
-/

theorem FP.add_fin_fin (x y : ℝ) : (FP.fin x).add (FP.fin y) = FP.fin (x + y) := rfl

theorem FP.add_ninf_fin (y : ℝ) : FP.ninf.add (FP.fin y) = FP.ninf := rfl

theorem FP.add_pinf_fin (y : ℝ) : FP.pinf.add (FP.fin y) = FP.pinf := rfl

theorem FP.add_fin_pinf (x : ℝ) : (FP.fin x).add FP.pinf = FP.pinf := rfl

theorem FP.add_pinf_pinf : FP.pinf.add FP.pinf = FP.pinf := rfl

theorem FP.neg_fin (x : ℝ) : (FP.fin x).neg = FP.fin (-x) := rfl

theorem FP.sub_eq (a c : FP) : a.sub c = a.add c.neg := rfl

theorem FP.mul_fin_fin (x y : ℝ) : (FP.fin x).mul (FP.fin y) = FP.fin (x * y) := rfl

theorem FP.mul_fin_ninf (x : ℝ) : (FP.fin x).mul FP.ninf =
    if x = 0 then FP.nan else if 0 < x then FP.ninf else FP.pinf := rfl

theorem FP.mul_ninf_fin (y : ℝ) : FP.ninf.mul (FP.fin y) =
    if y = 0 then FP.nan else if 0 < y then FP.ninf else FP.pinf := rfl

theorem FP.div_fin_fin (x y : ℝ) : (FP.fin x).div (FP.fin y) =
    if y = 0 then (if x = 0 then FP.nan else if 0 < x then FP.pinf else FP.ninf)
    else FP.fin (x / y) := rfl

theorem FP.div_fin_pinf (x : ℝ) : (FP.fin x).div FP.pinf = FP.fin 0 := rfl

theorem FP.exp_ninf : FP.exp FP.ninf = FP.fin 0 := rfl

theorem FP.exp_fin (x : ℝ) : FP.exp (FP.fin x) = FP.fin (Real.exp x) := rfl

theorem FP.log_fin (x : ℝ) : FP.log (FP.fin x) =
    if x = 0 then FP.ninf else if x < 0 then FP.nan else FP.fin (Real.log x) := rfl

theorem FP.log1p_fin (x : ℝ) : FP.log1p (FP.fin x) =
    if x = -1 then FP.ninf else if x < -1 then FP.nan
    else FP.fin (Real.log (1 + x)) := rfl

open Classical in
theorem FP.lgamma_fin (x : ℝ) : FP.lgamma (FP.fin x) =
    if 0 < x then FP.fin (Real.log (Real.Gamma x))
    else if ∃ n : ℕ, x = -(n : ℝ) then FP.pinf
    else FP.fin (Real.log |Real.Gamma x|) := rfl

theorem FP.lt_nan_left (x : FP) : FP.nan.lt x = false := by
  cases x <;> rfl

theorem FP.mul_ninf_fin_neg {y : ℝ} (hy : y < 0) :
    FP.ninf.mul (FP.fin y) = FP.pinf := by
  rw [FP.mul_ninf_fin, if_neg (ne_of_lt hy), if_neg (by linarith)]

/-- With lambda = 0 (the value of BlockBits/c when nkeys = 0 makes c = +Inf)
and a positive index i, logPoisson is -Inf: i * Log(0) = -Inf and the
finite Lgamma term does not change that. -/
theorem logPoisson_zero {r : ℝ} (hr : 1 ≤ r) :
    logPoisson (FP.fin 0) (FP.fin r) = FP.ninf := by
  rw [logPoisson, FP.log_fin, if_pos rfl, FP.mul_fin_ninf,
    if_neg (by linarith : r ≠ 0), if_pos (by linarith : (0:ℝ) < r)]
  rw [FP.add_fin_fin, FP.lgamma_fin, if_pos (by linarith : (0:ℝ) < r + 1)]
  rw [FP.sub_eq, FP.sub_eq, FP.neg_fin, FP.neg_fin, FP.add_ninf_fin, FP.add_ninf_fin]

/-- For positive index i = r and at least one hash function, the
logFprBlock term of the FPRate series is finite. -/
theorem logFprBlock_fin {nh : ℝ} (hnh : 1 ≤ nh) {r : ℝ} (hr : 1 ≤ r) :
    ∃ v : ℝ, logFprBlock ((FP.fin 512).div (FP.fin r)) (FP.fin nh) = FP.fin v := by
  have hrpos : (0:ℝ) < r := by linarith
  have h512r : (0:ℝ) < 512 / r := div_pos (by norm_num) hrpos
  rw [logFprBlock, FP.div_fin_fin, if_neg (by linarith : r ≠ 0),
    FP.div_fin_fin, if_neg (ne_of_gt h512r),
    FP.neg_fin, FP.exp_fin, FP.neg_fin, FP.log1p_fin]
  have hy : 0 < nh / (512 / r) := div_pos (by linarith) h512r
  have hexp1 : Real.exp (-(nh / (512 / r))) < 1 :=
    Real.exp_lt_one_iff.mpr (by linarith)
  rw [if_neg ?hne, if_neg ?hnlt, FP.mul_fin_fin]
  case hne =>
    intro hcon
    have : Real.exp (-(nh / (512 / r))) = 1 := by linarith [neg_injective hcon]
    linarith
  case hnlt =>
    rw [neg_lt_neg_iff]
    linarith
  exact ⟨_, rfl⟩

/-- One step of the FPRate loop in the nkeys = 0 configuration: the series
term is Exp(-Inf) = 0, the running sum stays 0, and the stopping test
compares 0/0 = NaN against the tolerance, which is false, so the loop
continues with the next index. -/
theorem fprateIter_pinf_none {nh : ℝ} (hnh : 1 ≤ nh) :
    ∀ (fuel : ℕ) (r : ℝ), 1 ≤ r →
      fprateIter FP.pinf (FP.fin nh) fuel (FP.fin 0) (FP.fin r) = none := by
  intro fuel
  induction fuel with
  | zero => intro r _; rfl
  | succ fuel ih =>
    intro r hr
    obtain ⟨v, hv⟩ := logFprBlock_fin hnh hr
    have hadd : FP.exp ((logPoisson ((FP.fin 512).div FP.pinf) (FP.fin r)).add
        (logFprBlock ((FP.fin 512).div (FP.fin r)) (FP.fin nh))) = FP.fin 0 := by
      rw [FP.div_fin_pinf, logPoisson_zero hr, hv, FP.add_ninf_fin, FP.exp_ninf]
    simp only [fprateIter]
    rw [hadd, FP.add_fin_fin]
    norm_num
    rw [FP.div_fin_fin, if_pos rfl, if_pos rfl, FP.lt_nan_left]
    simp only [Bool.false_eq_true, if_false]
    rw [FP.add_fin_fin]
    exact ih (r + 1) (by linarith)

/-- C6 (code bug): for every nbits at least 1 and nhashes at least 1,
FPRate with nkeys = 0 does not return, for any number of loop iterations:
c becomes +Inf, every series term is Exp(-Inf) = 0, the sum stays 0, and
the stopping test add/sum is 0/0 = NaN, which compares false against the
tolerance, so the break never fires.  The claim (and the spec) say the
call returns exactly 0. -/
theorem C6_fprate_zero_keys_diverges (nbits : ℕ) (nhashes : ℤ)
    (hnb : 1 ≤ nbits) (hnh : 1 ≤ nhashes) (fuel : ℕ) :
    FPRate 0 nbits nhashes fuel = none := by
  rw [FPRate]
  have hnbr : (0:ℝ) < (nbits : ℝ) := by exact_mod_cast hnb
  have hc : (FP.fin (nbits : ℝ)).div (FP.fin ((0 : ℕ) : ℝ)) = FP.pinf := by
    rw [Nat.cast_zero, FP.div_fin_fin, if_pos rfl,
      if_neg (ne_of_gt hnbr), if_pos hnbr]
  rw [hc]
  exact fprateIter_pinf_none (by exact_mod_cast hnh) fuel 1 le_rfl

theorem C6_witness :
    ((1:ℕ) ≤ 512 ∧ (1:ℤ) ≤ 2) ∧ FPRate 0 512 2 5 = none :=
  ⟨⟨by decide, by decide⟩,
    C6_fprate_zero_keys_diverges 512 2 (by decide) (by decide) 5⟩

/-!
Cardinality: population counts are bounded by 512, and the fold analysis.
-/

theorem foldl_add_le (g : ℕ → ℕ) (m : ℕ) (hg : ∀ j, g j ≤ m) :
    ∀ (l : List ℕ) (a : ℕ), l.foldl (fun a j => a + g j) a ≤ a + m * l.length := by
  intro l
  induction l with
  | nil => intro a; simp
  | cons x l ih =>
    intro a
    rw [List.foldl_cons]
    calc l.foldl (fun a j => a + g j) (a + g x) ≤ (a + g x) + m * l.length := ih _
      _ ≤ a + m * (x :: l).length := by
          have hgx := hg x
          rw [List.length_cons, Nat.mul_succ]
          omega

theorem onesCount32_le (w : ℕ) : onesCount32 w ≤ 32 := by
  have h := foldl_add_le (fun j => (w >>> j) % 2) 1
    (fun j => Nat.le_of_lt_succ (Nat.mod_lt _ (by norm_num))) (List.range 32) 0
  rw [onesCount32]
  simpa using h

theorem onescount_le (b : Block) : b.onescount ≤ 512 := by
  have h := foldl_add_le (fun j => onesCount32 (b.getD j 0)) 32
    (fun j => onesCount32_le _) (List.range 16) 0
  rw [Block.onescount]
  simpa using h

theorem log1M1D_neg : log1M1Dblockbits < 0 := by
  rw [log1M1Dblockbits]
  norm_num

/-- The logProb0Inv factor of Cardinality is a negative finite value as
soon as the filter has at least two hash functions. -/
theorem cardinality_lp (k : ℕ) (hk : 2 ≤ k) :
    ∃ L : ℝ, (FP.fin 1).div ((FP.fin ((k : ℝ) - 1)).mul (FP.fin log1M1Dblockbits)) =
      FP.fin L ∧ L < 0 := by
  have hk1 : (1:ℝ) ≤ (k:ℝ) - 1 := by
    have h2 : (2:ℝ) ≤ (k:ℝ) := by exact_mod_cast hk
    linarith
  have hprod : ((k:ℝ) - 1) * log1M1Dblockbits < 0 :=
    mul_neg_of_pos_of_neg (by linarith) log1M1D_neg
  rw [FP.mul_fin_fin, FP.div_fin_fin, if_neg (ne_of_lt hprod)]
  exact ⟨_, rfl, one_div_neg.mpr hprod⟩

/-- The per-block contribution of Cardinality: +Inf on a saturated block
(Log1p(-1) = -Inf times the negative factor), finite otherwise. -/
theorem cardContrib_cases {L : ℝ} (hL : L < 0) (ones : ℕ) (h1 : 1 ≤ ones)
    (h2 : ones ≤ 512) :
    (ones = 512 ∧
      (FP.log1p (FP.fin (-((ones : ℝ) / 512)))).mul (FP.fin L) = FP.pinf) ∨
    (∃ v, (FP.log1p (FP.fin (-((ones : ℝ) / 512)))).mul (FP.fin L) = FP.fin v) := by
  by_cases h512 : ones = 512
  · left
    refine ⟨h512, ?_⟩
    subst h512
    rw [FP.log1p_fin, if_pos (by norm_num), FP.mul_ninf_fin_neg hL]
  · right
    have hlt : (ones : ℝ) / 512 < 1 := by
      rw [div_lt_one (by norm_num)]
      exact_mod_cast Nat.lt_of_le_of_ne h2 h512
    have hle : (0:ℝ) < (ones : ℝ) / 512 := by
      apply div_pos _ (by norm_num)
      exact_mod_cast h1
    rw [FP.log1p_fin, if_neg (by linarith), if_neg (by linarith), FP.mul_fin_fin]
    exact ⟨_, rfl⟩

/-- Once the Cardinality accumulator is +Inf it stays +Inf: every further
block contributes a finite value or +Inf. -/
theorem cardFold_pinf_stays {L : ℝ} (hL : L < 0) :
    ∀ (l : List Block),
      l.foldl (fun n c => if Block.onescount c = 0 then n
        else n.add ((FP.log1p (FP.fin (-((Block.onescount c : ℝ) / 512)))).mul
          (FP.fin L))) FP.pinf = FP.pinf := by
  intro l
  induction l with
  | nil => rfl
  | cons c l ih =>
    rw [List.foldl_cons]
    by_cases h0 : Block.onescount c = 0
    · rw [if_pos h0]
      exact ih
    · rw [if_neg h0]
      rcases cardContrib_cases hL (Block.onescount c) (by omega) (onescount_le c) with
        ⟨_, hcon⟩ | ⟨v, hcon⟩
      · rw [hcon, FP.add_pinf_pinf]
        exact ih
      · rw [hcon, FP.add_pinf_fin]
        exact ih

/-- If some block of the list is saturated, the Cardinality fold from any
finite accumulator ends at +Inf. -/
theorem cardFold_pinf_of_mem {L : ℝ} (hL : L < 0) :
    ∀ (l : List Block), (∃ c ∈ l, Block.onescount c = 512) → ∀ (x : ℝ),
      l.foldl (fun n c => if Block.onescount c = 0 then n
        else n.add ((FP.log1p (FP.fin (-((Block.onescount c : ℝ) / 512)))).mul
          (FP.fin L))) (FP.fin x) = FP.pinf := by
  intro l
  induction l with
  | nil => intro h; exact absurd h (by simp)
  | cons c l ih =>
    intro hex x
    rw [List.foldl_cons]
    by_cases hc : Block.onescount c = 512
    · rw [if_neg (by omega)]
      rcases cardContrib_cases hL (Block.onescount c) (by omega) (onescount_le c) with
        ⟨_, hcon⟩ | ⟨v, hcon⟩
      · rw [hcon, FP.add_fin_pinf]
        exact cardFold_pinf_stays hL l
      · rw [hc] at hcon
        rw [FP.log1p_fin, if_pos (by norm_num), FP.mul_ninf_fin_neg hL] at hcon
        exact absurd hcon (by simp)
    · have hex' : ∃ d ∈ l, Block.onescount d = 512 := by
        rcases hex with ⟨d, hd, h512⟩
        rcases List.mem_cons.mp hd with hdc | hdl
        · rw [hdc] at h512
          exact absurd h512 hc
        · exact ⟨d, hdl, h512⟩
      by_cases h0 : Block.onescount c = 0
      · rw [if_pos h0]
        exact ih hex' x
      · rw [if_neg h0]
        rcases cardContrib_cases hL (Block.onescount c) (by omega) (onescount_le c) with
          ⟨hc512, _⟩ | ⟨v, hcon⟩
        · exact absurd hc512 hc
        · rw [hcon, FP.add_fin_fin]
          exact ih hex' (x + v)

/-- A fold over blocks that all have no set bit never changes the
accumulator. -/
theorem cardFold_zero (lp : FP) :
    ∀ (l : List Block), (∀ c ∈ l, Block.onescount c = 0) → ∀ (n : FP),
      l.foldl (fun n c => if Block.onescount c = 0 then n
        else n.add ((FP.log1p (FP.fin (-((Block.onescount c : ℝ) / 512)))).mul lp))
        n = n := by
  intro l
  induction l with
  | nil => intro _ n; rfl
  | cons c l ih =>
    intro h n
    rw [List.foldl_cons, if_pos (h c (by simp))]
    exact ih (fun d hd => h d (by simp [hd])) n

/-- C7: on a filter with at least two hash functions (as New produces),
Cardinality returns exactly 0 when no bit is set (every block is the zero
block), and +Inf when some block has all 512 of its bits set. -/
theorem C7_cardinality_edges (f : Filter) (hk : 2 ≤ f.k) :
    ((∀ c ∈ f.b, c = Block.zero) → f.Cardinality = FP.fin 0) ∧
    ((∃ c ∈ f.b, Block.onescount c = 512) → f.Cardinality = FP.pinf) := by
  obtain ⟨L, hL, hLneg⟩ := cardinality_lp f.k hk
  constructor
  · intro hz
    simp only [Filter.Cardinality]
    refine cardFold_zero _ f.b (fun c hc => ?_) (FP.fin 0)
    rw [hz c hc]
    decide
  · intro hex
    simp only [Filter.Cardinality]
    rw [hL]
    exact cardFold_pinf_of_mem hLneg f.b hex 0

theorem C7_witness :
    (2 ≤ (⟨[Block.zero], 2⟩ : Filter).k ∧
      2 ≤ (⟨[List.replicate 16 4294967295], 2⟩ : Filter).k) ∧
    Filter.Cardinality ⟨[Block.zero], 2⟩ = FP.fin 0 ∧
    Filter.Cardinality ⟨[List.replicate 16 4294967295], 2⟩ = FP.pinf :=
  ⟨⟨by decide, by decide⟩,
    (C7_cardinality_edges ⟨[Block.zero], 2⟩ (by decide)).1 (by decide),
    (C7_cardinality_edges ⟨[List.replicate 16 4294967295], 2⟩ (by decide)).2
      ⟨List.replicate 16 4294967295, by decide, by decide⟩⟩

end Blobloom
